import Mathlib

/-!
# Verification of portable-mcp (`src/index.js`)

A shallow embedding of the core logic of the `portable-mcp` CLI:

* the `deepMerge` configuration-merge engine (`src/index.js:199-213`),
* the merge write path (`src/index.js:171-196`),
* Gist descriptor parsing (`src/index.js:60-67` and `src/index.js:365-371`),
* Gist file selection (`src/index.js:86-109`),
* the `store` credential/CLI fallback (`src/index.js:216-245`),
* the default-path lookup (`src/index.js:19-36`),
* and the spec-described cache-enabled direct-URL resolver (not present in
  the given source files; modelled from the spec, see `resolveDirectUrl`).

JavaScript values are modelled by `JValue`; JSON numbers are modelled as
integers (the merge engine never inspects numeric values beyond JS
truthiness, for which only comparison with `0` matters).  JavaScript
objects are modelled as association lists of fields in insertion order.
-/

namespace PMcp

/-- A JSON value as held in memory by the tool (result of `JSON.parse` or an
object built by `deepMerge`).  Objects are field lists in insertion order. -/
inductive JValue where
  | null
  | bool (b : Bool)
  | num (n : Int)
  | str (s : String)
  | arr (elems : List JValue)
  | obj (fields : List (String × JValue))
  deriving Repr

/-- JS truthiness of a value (`if (v)`).  `null`, `false`, `0` and the empty
string are falsy; every array and every object (even `{}`) is truthy. -/
def jsTruthy : JValue → Bool
  | .null => false
  | .bool b => b
  | .num n => if n = 0 then false else true
  | .str s => if s = "" then false else true
  | .arr _ => true
  | .obj _ => true

/-- `typeof v === 'object'` in JS: true for `null`, arrays and objects. -/
def typeofIsObject : JValue → Bool
  | .null => true
  | .arr _ => true
  | .obj _ => true
  | _ => false

/-- `Array.isArray(v)`. -/
def isArray : JValue → Bool
  | .arr _ => true
  | _ => false

/-- The guard of the recursive branch of `deepMerge` (`src/index.js:204`):
`source[key] && typeof source[key] === 'object' && !Array.isArray(source[key])`. -/
def sourceValIsMergeable (v : JValue) : Bool :=
  jsTruthy v && typeofIsObject v && !isArray v

/-- `'0'`, `'1'`, ... : the character of a decimal digit. -/
def digitChar (d : Nat) : Char := Char.ofNat (48 + d)

/-- Fuel-driven decimal printer (the fuel `n + 1` always suffices). -/
def decimalDigitsCore : Nat → Nat → List Char
  | 0, _ => []
  | fuel + 1, n =>
    if n < 10 then [digitChar n]
    else decimalDigitsCore fuel (n / 10) ++ [digitChar (n % 10)]

/-- Decimal digit string of a natural number, e.g. `decimalDigits 10 = ['1','0']`. -/
def decimalDigits (n : Nat) : List Char := decimalDigitsCore (n + 1) n

/-- The JS property key of an array index (or string index): its decimal
numeral, e.g. index `3` has key `"3"`. -/
def jsIndexKey (n : Nat) : String := String.mk (decimalDigits n)

/-- Index/value pairs of a JS array (or string) starting at index `i`. -/
def indexPairsFrom (i : Nat) : List JValue → List (String × JValue)
  | [] => []
  | x :: rest => (jsIndexKey i, x) :: indexPairsFrom (i + 1) rest

/-- One-character string. -/
def charToStr (c : Char) : String := String.mk [c]

/-- The own enumerable (key, value) properties of a JS value, in iteration
order.  This is what both `{...v}` (object spread, `src/index.js:200`) and the
`for (const key in v)` loop filtered by `hasOwnProperty` (`src/index.js:202-203`)
enumerate: an object's fields, an array's indexed elements, a string's indexed
characters, and nothing for the remaining primitives. -/
def ownPairs : JValue → List (String × JValue)
  | .obj fields => fields
  | .arr elems => indexPairsFrom 0 elems
  | .str s => indexPairsFrom 0 (s.data.map (fun c => JValue.str (charToStr c)))
  | _ => []

/-- `result[key]` on the association-list model: the value at the first
occurrence of the key. -/
def lookupKey : List (String × JValue) → String → Option JValue
  | [], _ => none
  | (k2, v) :: rest, k => if k2 = k then some v else lookupKey rest k

/-- `result[key] = v` on the association-list model: JS property assignment
keeps an existing key at its position and appends a new key at the end. -/
def setKey : List (String × JValue) → String → JValue → List (String × JValue)
  | [], k, v => [(k, v)]
  | (k2, v2) :: rest, k, v =>
    if k2 = k then (k2, v) :: rest else (k2, v2) :: setKey rest k v

/-- `result[key] || {}` (`src/index.js:205`): a missing or falsy value is
replaced by an empty object, a truthy value is used as-is. -/
def jsOrEmpty : Option JValue → JValue
  | none => JValue.obj []
  | some v => if jsTruthy v then v else JValue.obj []

/-- The loop of `deepMerge` (`src/index.js:202-210`), folding the source's own
enumerable pairs into `result` (which starts as `{...target}`).  When the
source value is a non-null non-array object (cf. `sourceValIsMergeable`,
`src/index.js:204`) it is merged recursively into `result[key] || {}`;
otherwise it overwrites `result[key]` wholesale. -/
def mergeInto : List (String × JValue) → List (String × JValue) → List (String × JValue)
  | result, [] => result
  | result, (k, JValue.obj fs) :: rest =>
    mergeInto
      (setKey result k (JValue.obj (mergeInto (ownPairs (jsOrEmpty (lookupKey result k))) fs)))
      rest
  | result, (k, v) :: rest => mergeInto (setKey result k v) rest

/-- The field list of `deepMerge target source`: `{...target}` updated by the
loop over `source`'s own enumerable properties. -/
def mergeFields (target source : JValue) : List (String × JValue) :=
  mergeInto (ownPairs target) (ownPairs source)

/-- `deepMerge` (`src/index.js:199-213`).  Always returns an object: `result`
is initialised with object spread and returned. -/
def deepMerge (target source : JValue) : JValue :=
  JValue.obj (mergeFields target source)

/-- The value stored by one iteration of the `deepMerge` loop for a source
entry with value `v`, given the current `result[key]` (`prev`): a non-null
non-array object is merged into `result[key] || {}`, anything else is stored
as-is.  `mergeInto` performs `setKey` with exactly this value (see
`mergeInto_cons`). -/
def processedValue (prev : Option JValue) : JValue → JValue
  | .obj fs => JValue.obj (mergeInto (ownPairs (jsOrEmpty prev)) fs)
  | v => v

/-- Decimal value of a digit string (left fold), inverse of `decimalDigits`. -/
def decimalVal (l : List Char) : Nat :=
  l.foldl (fun a c => a * 10 + (c.toNat - 48)) 0

/-- Boolean membership of a string in a list of strings. -/
def keyMem (k : String) : List String → Bool
  | [] => false
  | k2 :: rest => if k2 = k then true else keyMem k rest

/-- All strings in the list are distinct (JS object keys always are). -/
def distinctKeys : List String → Bool
  | [] => true
  | k :: rest => !keyMem k rest && distinctKeys rest

mutual

/-- Well-formedness of a JSON value: every object reachable from it has
distinct keys.  `JSON.parse` output always satisfies this (a JS object cannot
hold the same key twice). -/
def WFJ : JValue → Bool
  | .obj fields => distinctKeys (fields.map Prod.fst) && WFfields fields
  | .arr elems => WFitems elems
  | _ => true

/-- Well-formedness of every value of a field list. -/
def WFfields : List (String × JValue) → Bool
  | [] => true
  | (_, v) :: rest => WFJ v && WFfields rest

/-- Well-formedness of every element of an array. -/
def WFitems : List JValue → Bool
  | [] => true
  | x :: rest => WFJ x && WFitems rest

end

/-! ## The merge write path (`src/index.js:171-196`)

`merge` downloads the overlay, then tries to read and `JSON.parse` the
destination file into `existingData` (initialised to `{}`); any exception of
that read/parse step is swallowed by the empty `catch`, leaving
`existingData = {}`.  The destination read/parse outcome is modelled as an
`Option JValue`: `none` when the file is missing or not parseable JSON. -/

/-- The value written by `merge` (`src/index.js:179-188`): the deep merge of
the destination's parsed content (or `{}` when reading/parsing failed) with
the downloaded overlay. -/
def mergeOperation (destRead : Option JValue) (newJsonData : JValue) : JValue :=
  deepMerge (destRead.getD (JValue.obj [])) newJsonData

/-! ## Cache-enabled direct-URL resolution

The spec (§4.1, §6, §9) describes a cache-enabled variant of `downloadJson`:
a cache entry keyed by a hash of the URL is reused without network access
while it is within the 1-hour freshness window, and bypassed (network
refetch) when stale.  The `downloadJson` under `src/` (`src/index.js:39-57`)
is the non-caching variant that the spec's §9 design note says is not
canonical; the cache-enabled variant is not among the given source files. -/

/-- Modelled from the spec: a cache entry (§3 `CacheEntry`) — the cached
parsed content of one source key together with the time it was written
(seconds). -/
structure CacheEntry where
  content : JValue
  timestamp : Nat

/-- Modelled from the spec: the freshness window is 1 hour (§3). -/
def freshnessWindowSeconds : Nat := 3600

/-- How a direct-URL resolution produced its document: from the cache (no
network access) or from an HTTP GET. -/
inductive ResolveResult where
  | fromCache (doc : JValue)
  | fromNetwork (doc : JValue)

/-- Modelled from the spec: the cache-enabled direct-URL resolve path
(§4.1), missing from the files under `src/`.  `cacheEntry` is the cache
entry stored for the URL's key (if any), `now` the fetch time, and
`networkBody` the parsed body an HTTP GET would return.  A cache entry whose
age is within the freshness window is returned without network access;
otherwise the fetch is re-issued. -/
def resolveDirectUrl (cacheEntry : Option CacheEntry) (now : Nat) (networkBody : JValue) :
    ResolveResult :=
  match cacheEntry with
  | some e =>
    if now - e.timestamp ≤ freshnessWindowSeconds then ResolveResult.fromCache e.content
    else ResolveResult.fromNetwork networkBody
  | none => ResolveResult.fromNetwork networkBody

/-! ## Gist file selection (`src/index.js:86-109`) -/

/-- JS `s.endsWith(suffix)`. -/
def jsEndsWith (s suffix : String) : Bool :=
  suffix.data.isSuffixOf s.data

/-- The failures of Gist file selection, with the data their messages carry:
`noFiles` for `'Gist contains no files'` (`src/index.js:89`), `fileNotFound`
for `"File '...' not found in gist. Available files: ..."` listing the
available filenames (`src/index.js:97`), and `multipleFiles` for
`'Multiple files in gist. Please specify filename: id/f1 or id/f2 ...'`
listing each candidate as `gistId/filename` (`src/index.js:107`). -/
inductive GistFileError where
  | noFiles
  | fileNotFound (fileName : String) (available : List String)
  | multipleFiles (gistId : String) (files : List String)
  deriving Repr, DecidableEq

/-- File selection of `downloadFromGist` (`src/index.js:86-109`): `files` is
`Object.keys(gistData.files)` in listing order, `fileName` the optional
explicit filename.  An explicitly named file is looked up (its record is a
truthy object exactly when the name is a key); otherwise a sole file is
selected; otherwise a sole `.json` file; otherwise selection fails listing
all files. -/
def selectGistFile (gistId : String) (files : List String) (fileName : Option String) :
    Except GistFileError String :=
  if files.length = 0 then Except.error GistFileError.noFiles
  else
    match fileName with
    | some fn =>
      if keyMem fn files then Except.ok fn
      else Except.error (GistFileError.fileNotFound fn files)
    | none =>
      if files.length = 1 then Except.ok (files.headD "")
      else
        let jsonFiles := files.filter (fun f => jsEndsWith f ".json")
        if jsonFiles.length = 1 then Except.ok (jsonFiles.headD "")
        else Except.error (GistFileError.multipleFiles gistId files)

/-! ## Gist descriptor parsing (`src/index.js:60-67`, `src/index.js:365-371`) -/

/-- JS `s.split(sep)` for a single-character separator, on the character
list: always returns at least one (possibly empty) group. -/
def splitCharList (sep : Char) : List Char → List (List Char)
  | [] => [[]]
  | c :: rest =>
    let r := splitCharList sep rest
    if c = sep then [] :: r
    else
      match r with
      | [] => [[c]]
      | g :: gs => (c :: g) :: gs

/-- Membership of a character in a character list. -/
def containsChar : List Char → Char → Bool
  | [], _ => false
  | c :: rest, a => if c = a then true else containsChar rest a

/-- JS `s.includes(c)` for a single character. -/
def jsIncludesChar (s : String) (c : Char) : Bool :=
  containsChar s.data c

/-- JS `s.split(c)` as a list of strings. -/
def jsSplitChar (s : String) (sep : Char) : List String :=
  (splitCharList sep s.data).map String.mk

/-- Joins character-list segments with a separator (inverse of
`splitCharList` for separator-free segments). -/
def joinCharList (sep : Char) : List (List Char) → List Char
  | [] => []
  | [x] => x
  | x :: rest => x ++ sep :: joinCharList sep rest

/-- Joins string segments with `'/'`, e.g. `joinSlash ["id", "a", "b"] =
"id/a/b"`. -/
def joinSlash (segs : List String) : String :=
  String.mk (joinCharList '/' (segs.map String.data))

/-- Gist-input parsing of `downloadFromGist` (`src/index.js:61-67`): when the
input contains `'/'`, destructure `gistInput.split('/')` as
`[gistId, fileName]` — the first group and the second group, any further
groups being discarded; otherwise the whole input is the id and no filename
is given. -/
def downloadFromGistParse (gistInput : String) : String × Option String :=
  if jsIncludesChar gistInput '/' then
    let parts := jsSplitChar gistInput '/'
    (parts.headD "", parts[1]?)
  else (gistInput, none)

/-- `gistIdToConfig` (`src/index.js:365-371`): destructures
`gistInput.split('/')` as `[id, fileName]` unconditionally (`fileName` is
`undefined` — here `none` — when there is no `'/'`). -/
def gistIdToConfig (gistInput : String) : String × Option String :=
  let parts := jsSplitChar gistInput '/'
  (parts.headD "", parts[1]?)

/-! ## Default configuration paths (`src/index.js:19-36`) -/

/-- JS `s.toLowerCase()` (ASCII case mapping, which is all the comparison
against `'cursor'`/`'claude'` can observe). -/
def jsToLowerCase (s : String) : String :=
  String.mk (s.data.map Char.toLower)

/-- `path.sep` of Node's `path.join`: backslash on Windows, slash elsewhere. -/
def pathSep (platform : String) : String :=
  if platform = "win32" then "\\" else "/"

/-- Node `path.join` (for the already-normalised segments used here). -/
def pathJoin (sep : String) (parts : List String) : String :=
  String.intercalate sep parts

/-- `getDefaultPath` (`src/index.js:19-36`): switches on
`type.toLowerCase()`; `'cursor'` and `'claude'` return a platform-dependent
path, every other type throws `Unsupported type: ...`.  Thrown errors are
modelled as `Except.error` with the message. -/
def getDefaultPath (platform homeDir ty : String) : Except String String :=
  if jsToLowerCase ty = "cursor" then
    Except.ok
      (if platform = "darwin" then
        pathJoin (pathSep platform)
          [homeDir, "Library", "Application Support", "Cursor", "User", "mcp.json"]
      else pathJoin (pathSep platform) [homeDir, ".cursor", "mcp.json"])
  else if jsToLowerCase ty = "claude" then
    Except.ok
      (if platform = "darwin" then
        pathJoin (pathSep platform)
          [homeDir, "Library", "Application Support", "Claude", "claude_desktop_config.json"]
      else
        pathJoin (pathSep platform)
          [homeDir, "AppData", "Roaming", "Claude", "claude_desktop_config.json"])
  else Except.error ("Unsupported type: " ++ ty ++ ". Supported types: cursor, claude")

/-! ## Publishing: `store` (`src/index.js:216-245`) -/

/-- The runtime environment `store` runs in: whether the source file is
readable, the `GITHUB_TOKEN` environment variable (`none` when unset), and
the state of the `gh` CLI on the machine.  `ghCliAuthenticated` records
whether `gh` holds valid credentials; `hasGitHubCli` (`src/index.js:216-223`)
never consults it — it only runs `gh --version`, which succeeds whenever the
CLI is installed. -/
structure StoreEnv where
  sourceReadable : Bool
  githubToken : Option String
  ghCliInstalled : Bool
  ghCliAuthenticated : Bool

/-- How a `store` invocation proceeds past its guard clauses. -/
inductive StoreOutcome where
  | sourceReadError
  | uploadViaApi
  | uploadViaCli
  | credentialError
  deriving Repr, DecidableEq

/-- JS truthiness of `this.githubToken` (`src/index.js:14`, tested at
`src/index.js:238`): an unset variable is `undefined` (falsy) and the empty
string is falsy. -/
def tokenTruthy : Option String → Bool
  | none => false
  | some s => if s = "" then false else true

/-- `hasGitHubCli` (`src/index.js:216-223`): true iff `gh --version`
succeeds, i.e. iff the CLI is installed — authentication is not checked. -/
def hasGitHubCli (env : StoreEnv) : Bool :=
  env.ghCliInstalled

/-- The dispatch of `store` (`src/index.js:226-245`): fail if the source file
is unreadable; else upload via the API when a token is truthy; else via the
`gh` CLI when `hasGitHubCli` succeeds; else throw `'Either GITHUB_TOKEN
environment variable or authenticated GitHub CLI is required'`
(`credentialError`, the spec's `ConfigError`). -/
def store (env : StoreEnv) : StoreOutcome :=
  if env.sourceReadable = false then StoreOutcome.sourceReadError
  else if tokenTruthy env.githubToken then StoreOutcome.uploadViaApi
  else if hasGitHubCli env then StoreOutcome.uploadViaCli
  else StoreOutcome.credentialError

/-- Whether an outcome goes on to attempt a remote upload (the API call of
`storeWithApi`, or the `gh gist create`/`gh gist edit` network operation of
`storeWithGhCli`). -/
def attemptsNetworkUpload : StoreOutcome → Bool
  | StoreOutcome.uploadViaApi => true
  | StoreOutcome.uploadViaCli => true
  | _ => false

/-! ## Association-list lemmas -/

theorem lookupKey_setKey_self (rs : List (String × JValue)) (k : String) (v : JValue) :
    lookupKey (setKey rs k v) k = some v := by
  induction rs with
  | nil => simp [setKey, lookupKey]
  | cons p rest ih =>
    obtain ⟨k2, v2⟩ := p
    by_cases h : k2 = k <;> simp [setKey, lookupKey, h, ih]

theorem lookupKey_setKey_other (rs : List (String × JValue)) (k k2 : String) (v : JValue)
    (h : k2 ≠ k) : lookupKey (setKey rs k2 v) k = lookupKey rs k := by
  induction rs with
  | nil => simp [setKey, lookupKey, h]
  | cons p rest ih =>
    obtain ⟨k3, v3⟩ := p
    have h5 : ¬(k = k2) := fun hh => h hh.symm
    by_cases h3 : k3 = k2
    · subst h3
      simp [setKey, lookupKey, h, h5]
    · by_cases h4 : k3 = k <;> simp [setKey, lookupKey, h3, h4, h5, ih]

theorem setKey_self (rs : List (String × JValue)) (k : String) (v : JValue)
    (h : lookupKey rs k = some v) : setKey rs k v = rs := by
  induction rs with
  | nil => simp [lookupKey] at h
  | cons p rest ih =>
    obtain ⟨k2, v2⟩ := p
    by_cases h2 : k2 = k
    · simp [lookupKey, h2] at h
      simp [setKey, h2, h]
    · simp [lookupKey, h2] at h
      simp [setKey, h2, ih h]

theorem setKey_of_lookup_none (rs : List (String × JValue)) (k : String) (v : JValue)
    (h : lookupKey rs k = none) : setKey rs k v = rs ++ [(k, v)] := by
  induction rs with
  | nil => simp [setKey]
  | cons p rest ih =>
    obtain ⟨k2, v2⟩ := p
    by_cases h2 : k2 = k
    · simp [lookupKey, h2] at h
    · simp [lookupKey, h2] at h
      simp [setKey, h2, ih h]

theorem lookupKey_append_of_none (rs ts : List (String × JValue)) (k : String)
    (h : lookupKey rs k = none) : lookupKey (rs ++ ts) k = lookupKey ts k := by
  induction rs with
  | nil => simp
  | cons p rest ih =>
    obtain ⟨k2, v2⟩ := p
    by_cases h2 : k2 = k
    · simp [lookupKey, h2] at h
    · simp [lookupKey, h2] at h
      simp [lookupKey, h2, ih h]

theorem keyMem_iff (k : String) (l : List String) : keyMem k l = true ↔ k ∈ l := by
  induction l with
  | nil => simp [keyMem]
  | cons k2 rest ih =>
    by_cases h : k2 = k
    · simp [keyMem, h]
    · have h2 : ¬(k = k2) := fun hh => h hh.symm
      simp [keyMem, h, h2, ih]

theorem distinctKeys_cons (k : String) (l : List String) :
    distinctKeys (k :: l) = true ↔ k ∉ l ∧ distinctKeys l = true := by
  cases hkm : keyMem k l <;> simp [distinctKeys, hkm, ← keyMem_iff]

/-! ## Characterisation of the `deepMerge` loop -/

theorem ownPairs_obj (fs : List (String × JValue)) : ownPairs (JValue.obj fs) = fs := rfl

theorem mergeInto_cons (rs : List (String × JValue)) (k : String) (v : JValue)
    (rest : List (String × JValue)) :
    mergeInto rs ((k, v) :: rest) =
      mergeInto (setKey rs k (processedValue (lookupKey rs k) v)) rest := by
  cases v <;> simp [mergeInto, processedValue]

theorem mergeInto_lookup_of_not_mem (fs : List (String × JValue)) (k : String)
    (h : k ∉ fs.map Prod.fst) :
    ∀ rs, lookupKey (mergeInto rs fs) k = lookupKey rs k := by
  induction fs with
  | nil => intro rs; simp [mergeInto]
  | cons p rest ih =>
    obtain ⟨k2, v2⟩ := p
    simp only [List.map_cons, List.mem_cons] at h
    push_neg at h
    intro rs
    rw [mergeInto_cons, ih h.2, lookupKey_setKey_other _ _ _ _ (Ne.symm h.1)]

theorem mergeInto_lookup_of_mem (fs : List (String × JValue)) (k : String) (v : JValue)
    (hd : distinctKeys (fs.map Prod.fst) = true) (hm : (k, v) ∈ fs) :
    ∀ rs, lookupKey (mergeInto rs fs) k = some (processedValue (lookupKey rs k) v) := by
  induction fs with
  | nil => simp at hm
  | cons p rest ih =>
    obtain ⟨k2, v2⟩ := p
    intro rs
    rw [List.map_cons, distinctKeys_cons] at hd
    rcases List.mem_cons.mp hm with heq | hmem
    · obtain ⟨hk, hv⟩ := Prod.mk.injEq .. ▸ heq
      subst hk
      subst hv
      rw [mergeInto_cons,
        mergeInto_lookup_of_not_mem rest k hd.1,
        lookupKey_setKey_self]
    · have hk2 : k2 ≠ k := by
        rintro rfl
        exact hd.1 (List.mem_map.mpr ⟨(k2, v), hmem, rfl⟩)
      rw [mergeInto_cons, ih hd.2 hmem, lookupKey_setKey_other _ _ _ _ hk2]

theorem mergeInto_fixed (fs R : List (String × JValue))
    (h : ∀ k v, (k, v) ∈ fs → ∃ w, lookupKey R k = some w ∧ processedValue (some w) v = w) :
    mergeInto R fs = R := by
  induction fs with
  | nil => simp [mergeInto]
  | cons p rest ih =>
    obtain ⟨k, v⟩ := p
    obtain ⟨w, hw, hpv⟩ := h k v (List.mem_cons_self _ _)
    rw [mergeInto_cons, hw, hpv, setKey_self R k w hw]
    exact ih fun k2 v2 hm => h k2 v2 (List.mem_cons_of_mem _ hm)

/-! ## Decimal index keys -/

theorem digitChar_toNat (d : Nat) (h : d < 10) : (digitChar d).toNat = 48 + d := by
  interval_cases d <;> rfl

theorem foldl_decimalDigitsCore (fuel : Nat) :
    ∀ n acc, n < fuel →
      List.foldl (fun a c => a * 10 + (c.toNat - 48)) acc (decimalDigitsCore fuel n) =
        acc * 10 ^ (decimalDigitsCore fuel n).length + n := by
  induction fuel with
  | zero => intro n acc h; omega
  | succ fuel ih =>
    intro n acc h
    by_cases h10 : n < 10
    · simp [decimalDigitsCore, h10, digitChar_toNat n h10]
    · have hrec : n / 10 < fuel := by omega
      simp only [decimalDigitsCore, if_neg h10, List.foldl_append, List.length_append,
        List.length_singleton]
      rw [ih (n / 10) acc hrec]
      simp only [List.foldl_cons, List.foldl_nil, digitChar_toNat (n % 10) (by omega)]
      rw [pow_succ, ← mul_assoc]
      have hX : (acc * 10 ^ (decimalDigitsCore fuel (n / 10)).length + n / 10) * 10 =
          acc * 10 ^ (decimalDigitsCore fuel (n / 10)).length * 10 + n / 10 * 10 := by
        ring
      rw [hX]
      omega

theorem decimalVal_decimalDigits (n : Nat) : decimalVal (decimalDigits n) = n := by
  have h := foldl_decimalDigitsCore (n + 1) n 0 (by omega)
  simpa [decimalVal, decimalDigits] using h

theorem jsIndexKey_injective (m n : Nat) (h : jsIndexKey m = jsIndexKey n) : m = n := by
  have hd : decimalDigits m = decimalDigits n := congrArg String.data h
  have hm := decimalVal_decimalDigits m
  rw [hd, decimalVal_decimalDigits n] at hm
  exact hm.symm

theorem mem_keys_indexPairsFrom (xs : List JValue) :
    ∀ i k, k ∈ (indexPairsFrom i xs).map Prod.fst → ∃ m, i ≤ m ∧ k = jsIndexKey m := by
  induction xs with
  | nil => intro i k h; simp [indexPairsFrom] at h
  | cons x rest ih =>
    intro i k h
    simp only [indexPairsFrom, List.map_cons, List.mem_cons] at h
    rcases h with h | h
    · exact ⟨i, Nat.le_refl i, h⟩
    · obtain ⟨m, hm, hk⟩ := ih (i + 1) k h
      exact ⟨m, by omega, hk⟩

theorem distinctKeys_indexPairsFrom (xs : List JValue) :
    ∀ i, distinctKeys ((indexPairsFrom i xs).map Prod.fst) = true := by
  induction xs with
  | nil => intro i; simp [indexPairsFrom, distinctKeys]
  | cons x rest ih =>
    intro i
    simp only [indexPairsFrom, List.map_cons]
    rw [distinctKeys_cons]
    refine ⟨fun hmem => ?_, ih (i + 1)⟩
    obtain ⟨m, hm, hk⟩ := mem_keys_indexPairsFrom rest (i + 1) (jsIndexKey i) hmem
    have := jsIndexKey_injective i m hk
    omega

/-! ## Well-formedness helpers -/

theorem WFfields_mem (fs : List (String × JValue)) (h : WFfields fs = true)
    (k : String) (v : JValue) (hm : (k, v) ∈ fs) : WFJ v = true := by
  induction fs with
  | nil => simp at hm
  | cons p rest ih =>
    obtain ⟨k2, v2⟩ := p
    rw [WFfields, Bool.and_eq_true] at h
    rcases List.mem_cons.mp hm with heq | hmem
    · obtain ⟨_, hv⟩ := Prod.mk.injEq .. ▸ heq
      exact hv ▸ h.1
    · exact ih h.2 hmem

theorem WFitems_mem (xs : List JValue) (h : WFitems xs = true)
    (x : JValue) (hm : x ∈ xs) : WFJ x = true := by
  induction xs with
  | nil => simp at hm
  | cons y rest ih =>
    rw [WFitems, Bool.and_eq_true] at h
    rcases List.mem_cons.mp hm with heq | hmem
    · exact heq ▸ h.1
    · exact ih h.2 hmem

theorem WFfields_indexPairsFrom (xs : List JValue) (h : ∀ x ∈ xs, WFJ x = true) :
    ∀ i, WFfields (indexPairsFrom i xs) = true := by
  induction xs with
  | nil => intro i; simp [indexPairsFrom, WFfields]
  | cons x rest ih =>
    intro i
    rw [indexPairsFrom, WFfields, Bool.and_eq_true]
    exact ⟨h x (List.mem_cons_self _ _),
      ih (fun y hy => h y (List.mem_cons_of_mem _ hy)) (i + 1)⟩

theorem ownPairs_distinct (v : JValue) (h : WFJ v = true) :
    distinctKeys ((ownPairs v).map Prod.fst) = true := by
  cases v with
  | obj fields =>
    rw [WFJ, Bool.and_eq_true] at h
    exact h.1
  | arr elems => exact distinctKeys_indexPairsFrom elems 0
  | str s => exact distinctKeys_indexPairsFrom _ 0
  | null => simp [ownPairs, distinctKeys]
  | bool b => simp [ownPairs, distinctKeys]
  | num n => simp [ownPairs, distinctKeys]

theorem ownPairs_WFfields (v : JValue) (h : WFJ v = true) :
    WFfields (ownPairs v) = true := by
  cases v with
  | obj fields =>
    rw [WFJ, Bool.and_eq_true] at h
    exact h.2
  | arr elems =>
    rw [WFJ] at h
    exact WFfields_indexPairsFrom elems (WFitems_mem elems h) 0
  | str s =>
    refine WFfields_indexPairsFrom _ (fun x hx => ?_) 0
    obtain ⟨c, _, rfl⟩ := List.mem_map.mp hx
    rfl
  | null => rfl
  | bool b => rfl
  | num n => rfl

/-! ## Size bound for nested induction -/

theorem sizeOf_field_lt (fs : List (String × JValue)) (k : String) (g : List (String × JValue))
    (hm : (k, JValue.obj g) ∈ fs) : sizeOf g < sizeOf fs := by
  have h1 := List.sizeOf_lt_of_mem hm
  simp only [Prod.mk.sizeOf_spec, JValue.obj.sizeOf_spec] at h1
  omega

/-! ## Idempotence of the merge loop -/

theorem mergeInto_idem_aux (n : Nat) :
    ∀ fs : List (String × JValue), sizeOf fs < n →
      distinctKeys (fs.map Prod.fst) = true → WFfields fs = true →
      ∀ rs, mergeInto (mergeInto rs fs) fs = mergeInto rs fs := by
  induction n with
  | zero => intro fs h; omega
  | succ n ih =>
    intro fs hsize hd hwf rs
    apply mergeInto_fixed
    intro k v hm
    refine ⟨processedValue (lookupKey rs k) v, mergeInto_lookup_of_mem fs k v hd hm rs, ?_⟩
    cases v with
    | obj g =>
      have hWO : WFJ (JValue.obj g) = true := WFfields_mem fs hwf k _ hm
      rw [WFJ, Bool.and_eq_true] at hWO
      have hsg : sizeOf g < n := by
        have := sizeOf_field_lt fs k g hm
        omega
      simp only [processedValue, jsOrEmpty, jsTruthy, if_true, ownPairs]
      exact congrArg JValue.obj (ih g hsg hWO.1 hWO.2 _)
    | null => rfl
    | bool b => rfl
    | num m => rfl
    | str s => rfl
    | arr xs => rfl

/-! ## Merging into an empty base copies a well-formed source -/

theorem mergeInto_copy_aux (n : Nat) :
    ∀ fs : List (String × JValue), sizeOf fs < n →
      distinctKeys (fs.map Prod.fst) = true → WFfields fs = true →
      ∀ acc, (∀ k v, (k, v) ∈ fs → lookupKey acc k = none) →
        mergeInto acc fs = acc ++ fs := by
  induction n with
  | zero => intro fs h; omega
  | succ n ih =>
    intro fs hsize hd hwf acc hnone
    cases fs with
    | nil => simp [mergeInto]
    | cons p rest =>
      obtain ⟨k, v⟩ := p
      rw [List.map_cons, distinctKeys_cons] at hd
      rw [WFfields, Bool.and_eq_true] at hwf
      have hlk : lookupKey acc k = none := hnone k v (List.mem_cons_self _ _)
      have hpv : processedValue (lookupKey acc k) v = v := by
        cases v with
        | obj g =>
          rw [hlk]
          simp only [processedValue, jsOrEmpty, ownPairs]
          have hsg : sizeOf g < n := by
            have := sizeOf_field_lt ((k, JValue.obj g) :: rest) k g (List.mem_cons_self _ _)
            omega
          have hg : WFJ (JValue.obj g) = true := hwf.1
          rw [WFJ, Bool.and_eq_true] at hg
          rw [ih g hsg hg.1 hg.2 [] (fun _ _ _ => rfl)]
          simp
        | null => rfl
        | bool b => rfl
        | num m => rfl
        | str s => rfl
        | arr xs => rfl
      have hsrest : sizeOf rest < n := by
        simp only [List.cons.sizeOf_spec] at hsize
        omega
      have hnrest : ∀ k2 v2, (k2, v2) ∈ rest → lookupKey (acc ++ [(k, v)]) k2 = none := by
        intro k2 v2 hm2
        have hne : ¬(k = k2) := by
          rintro rfl
          exact hd.1 (List.mem_map.mpr ⟨(k, v2), hm2, rfl⟩)
        rw [lookupKey_append_of_none acc _ k2 (hnone k2 v2 (List.mem_cons_of_mem _ hm2))]
        simp [lookupKey, hne]
      rw [mergeInto_cons, hpv, setKey_of_lookup_none acc k v hlk,
        ih rest hsrest hd.2 hwf.2 (acc ++ [(k, v)]) hnrest]
      simp

/-! ## Claim C1 -/

/-- Claim C1, counterexample: for base `{x: [1]}` and overlay `{x: {}}`, the
claim predicts result `{}` at `"x"` (the recursive merge of the overlay value
`{}` with an empty object, since the base value `[1]` is not an object), but
`deepMerge` computes `result["x"] || {}` — the truthy array `[1]` — and
spreads it, producing `{"0": 1}` at `"x"`. -/
theorem c1_counterexample :
    lookupKey
        (mergeFields (JValue.obj [("x", JValue.arr [JValue.num 1])])
          (JValue.obj [("x", JValue.obj [])])) "x" ≠
      some (deepMerge (JValue.obj []) (JValue.obj [])) := by
  simp [deepMerge, mergeFields, mergeInto, ownPairs, lookupKey, setKey, jsOrEmpty, jsTruthy,
    indexPairsFrom, jsIndexKey, decimalDigits, decimalDigitsCore, digitChar]

/-- Claim C1 (amended): for every base value and overlay object with distinct
keys, at every overlay key `k` whose value is a non-null, non-array object,
the merge result at `k` is the recursive merge of the overlay value with
`base[k] || {}` — an absent or falsy base value at `k` is treated as an
empty object, while a truthy base value (object or not, e.g. a non-empty
array or string) is passed to the recursion as-is, whose spread copies its
own enumerable contents into the result at `k`. -/
theorem c1_recursive_merge_at_key (base : JValue) (of : List (String × JValue)) (k : String)
    (g : List (String × JValue)) (hd : distinctKeys (of.map Prod.fst) = true)
    (hm : (k, JValue.obj g) ∈ of) :
    lookupKey (mergeFields base (JValue.obj of)) k =
      some (deepMerge (jsOrEmpty (lookupKey (ownPairs base) k)) (JValue.obj g)) := by
  simp only [mergeFields, ownPairs_obj]
  rw [mergeInto_lookup_of_mem of k _ hd hm (ownPairs base)]
  rfl

/-- Witness for `c1_recursive_merge_at_key` at the counterexample's input:
base `{x: [1]}`, overlay `{x: {}}`. -/
theorem c1_recursive_merge_at_key_witness :
    lookupKey
        (mergeFields (JValue.obj [("x", JValue.arr [JValue.num 1])])
          (JValue.obj [("x", JValue.obj [])])) "x" =
      some (deepMerge
        (jsOrEmpty (lookupKey (ownPairs (JValue.obj [("x", JValue.arr [JValue.num 1])])) "x"))
        (JValue.obj [])) :=
  c1_recursive_merge_at_key _ _ "x" [] (by decide) (by simp)

/-! ## Claim C4 -/

/-- Claim C4: merge is idempotent in its overlay argument — for every base
value `a` and every (well-formed, as all JSON values are) overlay value `b`,
`deepMerge (deepMerge a b) b = deepMerge a b`. -/
theorem c4_deepMerge_idempotent (a b : JValue) (h : WFJ b = true) :
    deepMerge (deepMerge a b) b = deepMerge a b := by
  simp only [deepMerge, mergeFields, ownPairs_obj]
  exact congrArg JValue.obj
    (mergeInto_idem_aux (sizeOf (ownPairs b) + 1) (ownPairs b) (by omega)
      (ownPairs_distinct b h) (ownPairs_WFfields b h) (ownPairs a))

/-- Witness for `c4_deepMerge_idempotent` at `a = {x: 1}`,
`b = {x: {y: 2}}`. -/
theorem c4_deepMerge_idempotent_witness :
    WFJ (JValue.obj [("x", JValue.obj [("y", JValue.num 2)])]) = true ∧
      deepMerge
          (deepMerge (JValue.obj [("x", JValue.num 1)])
            (JValue.obj [("x", JValue.obj [("y", JValue.num 2)])]))
          (JValue.obj [("x", JValue.obj [("y", JValue.num 2)])]) =
        deepMerge (JValue.obj [("x", JValue.num 1)])
          (JValue.obj [("x", JValue.obj [("y", JValue.num 2)])]) :=
  ⟨by simp [WFJ, WFfields, distinctKeys, keyMem],
   c4_deepMerge_idempotent _ _ (by simp [WFJ, WFfields, distinctKeys, keyMem])⟩

/-! ## Claim C5 -/

/-- Claim C5: merge preserves base-only keys — for every base object, overlay
object and key `k` present in the base but absent from the overlay, the merge
result at `k` is the base's value at `k`, unchanged. -/
theorem c5_base_only_keys_preserved (bf of : List (String × JValue)) (k : String)
    (_hbase : k ∈ bf.map Prod.fst) (hover : k ∉ of.map Prod.fst) :
    lookupKey (mergeFields (JValue.obj bf) (JValue.obj of)) k = lookupKey bf k := by
  simp only [mergeFields, ownPairs_obj]
  exact mergeInto_lookup_of_not_mem of k hover bf

/-- Witness for `c5_base_only_keys_preserved` at base `{a: 1}`, overlay
`{b: 2}`, key `"a"`. -/
theorem c5_base_only_keys_preserved_witness :
    lookupKey (mergeFields (JValue.obj [("a", JValue.num 1)])
        (JValue.obj [("b", JValue.num 2)])) "a" =
      lookupKey [("a", JValue.num 1)] "a" ∧
    lookupKey [("a", JValue.num 1)] "a" = some (JValue.num 1) :=
  ⟨c5_base_only_keys_preserved _ _ "a" (by decide) (by decide), by simp [lookupKey]⟩

/-! ## Claim C6 -/

/-- Claim C6: for every overlay key whose value is a primitive, `null` or an
array (i.e. fails `deepMerge`'s mergeable-object guard), the merge result at
that key is the overlay value wholesale — arrays are never merged
element-wise. -/
theorem c6_non_object_overwrites (base : JValue) (of : List (String × JValue)) (k : String)
    (v : JValue) (hd : distinctKeys (of.map Prod.fst) = true) (hm : (k, v) ∈ of)
    (hnm : sourceValIsMergeable v = false) :
    lookupKey (mergeFields base (JValue.obj of)) k = some v := by
  simp only [mergeFields, ownPairs_obj]
  rw [mergeInto_lookup_of_mem of k v hd hm (ownPairs base)]
  cases v with
  | obj g => simp [sourceValIsMergeable, jsTruthy, typeofIsObject, isArray] at hnm
  | null => rfl
  | bool b => rfl
  | num m => rfl
  | str s => rfl
  | arr xs => rfl

/-- Witness for `c6_non_object_overwrites` at the spec's example
`merge({x: [1,2]}, {x: [3]}) = {x: [3]}`. -/
theorem c6_non_object_overwrites_witness :
    lookupKey
        (mergeFields (JValue.obj [("x", JValue.arr [JValue.num 1, JValue.num 2])])
          (JValue.obj [("x", JValue.arr [JValue.num 3])])) "x" =
      some (JValue.arr [JValue.num 3]) ∧
    deepMerge (JValue.obj [("x", JValue.arr [JValue.num 1, JValue.num 2])])
        (JValue.obj [("x", JValue.arr [JValue.num 3])]) =
      JValue.obj [("x", JValue.arr [JValue.num 3])] :=
  ⟨c6_non_object_overwrites _ _ "x" _ (by decide) (by simp) rfl,
   by simp [deepMerge, mergeFields, mergeInto, ownPairs, setKey, lookupKey]⟩

/-! ## Claim C8 -/

/-- Claim C8, counterexample: when the destination read fails and the
resolved overlay is the JSON number `5`, the written result is `{}` (the
object spread of `5`), not a structural copy of the overlay — `deepMerge`
always returns an object. -/
theorem c8_counterexample : mergeOperation none (JValue.num 5) ≠ JValue.num 5 := by
  simp [mergeOperation, deepMerge, mergeFields, mergeInto, ownPairs]

/-- Claim C8 (amended): a merge-to-destination operation whose destination
file is missing or not parseable JSON does not fail on that account — the
effective base is the empty object — and when the resolved overlay is a JSON
object the written result is a structural copy of the overlay (for a
non-object overlay the result is instead the object formed from the
overlay's own enumerable properties). -/
theorem c8_unreadable_destination_copies_object_overlay (fs : List (String × JValue))
    (h : WFJ (JValue.obj fs) = true) :
    mergeOperation none (JValue.obj fs) = JValue.obj fs := by
  rw [WFJ, Bool.and_eq_true] at h
  show deepMerge (JValue.obj []) (JValue.obj fs) = JValue.obj fs
  simp only [deepMerge, mergeFields, ownPairs]
  rw [mergeInto_copy_aux (sizeOf fs + 1) fs (by omega) h.1 h.2 [] (fun _ _ _ => rfl)]
  simp

/-- Witness for `c8_unreadable_destination_copies_object_overlay` at overlay
`{mcpServers: {}}`. -/
theorem c8_unreadable_destination_witness :
    mergeOperation none (JValue.obj [("mcpServers", JValue.obj [])]) =
      JValue.obj [("mcpServers", JValue.obj [])] :=
  c8_unreadable_destination_copies_object_overlay _
    (by simp [WFJ, WFfields, distinctKeys, keyMem])

/-! ## Claim C2 -/

/-- Claim C2 (spec-modelled): for a direct-URL source with a cache entry
whose age at fetch time is within the 1-hour freshness window, resolution
returns the cached content without network access; when the entry is older
than the window, the cache is bypassed and the HTTP GET is re-issued. -/
theorem c2_cache_freshness (e : CacheEntry) (now : Nat) (body : JValue) :
    (now - e.timestamp ≤ freshnessWindowSeconds →
      resolveDirectUrl (some e) now body = ResolveResult.fromCache e.content) ∧
    (freshnessWindowSeconds < now - e.timestamp →
      resolveDirectUrl (some e) now body = ResolveResult.fromNetwork body) := by
  constructor
  · intro h
    simp [resolveDirectUrl, h]
  · intro h
    have h2 : ¬(now - e.timestamp ≤ freshnessWindowSeconds) := by omega
    simp [resolveDirectUrl, h2]

/-- Witness for `c2_cache_freshness`: an entry written at time `0` is served
from the cache at `T + 59` minutes (`3540` s) and bypassed at `T + 61`
minutes (`3660` s). -/
theorem c2_cache_freshness_witness :
    resolveDirectUrl (some (CacheEntry.mk (JValue.num 1) 0)) 3540 (JValue.num 2) =
      ResolveResult.fromCache (JValue.num 1) ∧
    resolveDirectUrl (some (CacheEntry.mk (JValue.num 1) 0)) 3660 (JValue.num 2) =
      ResolveResult.fromNetwork (JValue.num 2) :=
  ⟨(c2_cache_freshness (CacheEntry.mk (JValue.num 1) 0) 3540 (JValue.num 2)).1 (by decide),
   (c2_cache_freshness (CacheEntry.mk (JValue.num 1) 0) 3660 (JValue.num 2)).2 (by decide)⟩

/-! ## Claim C7 -/

/-- Claim C7, counterexample: in an environment with a readable source, no
API credential, and the `gh` CLI installed but not authenticated — so no
authenticated external CLI helper is available — `store` does not fail with
the credential `ConfigError`: `hasGitHubCli` only runs `gh --version`, so
`store` proceeds to attempt the CLI upload (a network operation). -/
theorem c7_counterexample :
    tokenTruthy (StoreEnv.mk true none true false).githubToken = false ∧
    ¬((StoreEnv.mk true none true false).ghCliInstalled = true ∧
        (StoreEnv.mk true none true false).ghCliAuthenticated = true) ∧
    (StoreEnv.mk true none true false).sourceReadable = true ∧
    store (StoreEnv.mk true none true false) ≠ StoreOutcome.credentialError ∧
    attemptsNetworkUpload (store (StoreEnv.mk true none true false)) = true := by
  refine ⟨rfl, ?_, rfl, ?_, rfl⟩
  · rintro ⟨-, h⟩
    cases h
  · intro h
    cases h

/-- Claim C7 (amended): for every publish invocation with a readable source
file, no truthy API credential, and the external CLI helper not installed
(the code's availability check is `gh --version`; authentication is never
checked), `store` fails with the credential `ConfigError` and never attempts
a network upload. -/
theorem c7_no_credential_no_cli (env : StoreEnv) (hread : env.sourceReadable = true)
    (htok : tokenTruthy env.githubToken = false) (hcli : env.ghCliInstalled = false) :
    store env = StoreOutcome.credentialError ∧
      attemptsNetworkUpload (store env) = false := by
  simp [store, hasGitHubCli, hread, htok, hcli, attemptsNetworkUpload]

/-- Witness for `c7_no_credential_no_cli`: readable source, no token, no
`gh` CLI. -/
theorem c7_no_credential_no_cli_witness :
    store (StoreEnv.mk true none false false) = StoreOutcome.credentialError ∧
      attemptsNetworkUpload (store (StoreEnv.mk true none false false)) = false :=
  c7_no_credential_no_cli (StoreEnv.mk true none false false) rfl rfl rfl

/-! ## Claim C10 -/

/-- Claim C10: `getDefaultPath` matches the application type
case-insensitively — every type string lowercasing to `cursor` or `claude`
yields a path (no throw), and every other type string throws the
unsupported-type error. -/
theorem c10_default_path_type_dispatch (platform homeDir ty : String) :
    ((jsToLowerCase ty = "cursor" ∨ jsToLowerCase ty = "claude") →
      ∃ p, getDefaultPath platform homeDir ty = Except.ok p) ∧
    (jsToLowerCase ty ≠ "cursor" → jsToLowerCase ty ≠ "claude" →
      getDefaultPath platform homeDir ty =
        Except.error ("Unsupported type: " ++ ty ++ ". Supported types: cursor, claude")) := by
  constructor
  · rintro (h | h) <;> simp [getDefaultPath, h]
  · intro h1 h2
    simp [getDefaultPath, h1, h2]

/-- Witness for `c10_default_path_type_dispatch` at `"CuRsOr"` (a path is
returned) and `"emacs"` (the unsupported-type error is thrown). -/
theorem c10_default_path_type_dispatch_witness :
    (∃ p, getDefaultPath "darwin" "/home/u" "CuRsOr" = Except.ok p) ∧
    getDefaultPath "linux" "/home/u" "emacs" =
      Except.error ("Unsupported type: " ++ "emacs" ++ ". Supported types: cursor, claude") :=
  ⟨(c10_default_path_type_dispatch "darwin" "/home/u" "CuRsOr").1 (Or.inl (by decide)),
   (c10_default_path_type_dispatch "linux" "/home/u" "emacs").2 (by decide) (by decide)⟩

/-! ## Claim C3 -/

/-- Claim C3: for every non-empty Gist file listing, selection follows
exactly this priority: an explicitly given filename is selected if present
and fails with the not-found error (listing the available filenames) if
absent; else the sole file of a one-file listing is selected; else the sole
`.json` file is selected when exactly one exists; else selection fails with
the ambiguous-source error listing the candidates. -/
theorem c3_gist_file_selection (gistId : String) (files : List String)
    (fileName : Option String) (hne : files ≠ []) :
    (∀ fn, fileName = some fn →
      (fn ∈ files → selectGistFile gistId files fileName = Except.ok fn) ∧
      (fn ∉ files →
        selectGistFile gistId files fileName =
          Except.error (GistFileError.fileNotFound fn files))) ∧
    (fileName = none → files.length = 1 →
      selectGistFile gistId files fileName = Except.ok (files.headD "")) ∧
    (fileName = none → 2 ≤ files.length →
      (files.filter (fun f => jsEndsWith f ".json")).length = 1 →
      selectGistFile gistId files fileName =
        Except.ok ((files.filter (fun f => jsEndsWith f ".json")).headD "")) ∧
    (fileName = none → 2 ≤ files.length →
      (files.filter (fun f => jsEndsWith f ".json")).length ≠ 1 →
      selectGistFile gistId files fileName =
        Except.error (GistFileError.multipleFiles gistId files)) := by
  have hlen : ¬(files.length = 0) := fun h => hne (List.length_eq_zero.mp h)
  refine ⟨?_, ?_, ?_, ?_⟩
  · rintro fn rfl
    constructor
    · intro hmem
      simp [selectGistFile, hlen, (keyMem_iff fn files).mpr hmem]
    · intro hnmem
      have hkm : keyMem fn files = false := by
        cases h : keyMem fn files
        · rfl
        · exact absurd ((keyMem_iff fn files).mp h) hnmem
      simp [selectGistFile, hlen, hkm]
  · rintro rfl h1
    simp [selectGistFile, hlen, h1]
  · rintro rfl h2 h3
    have h1 : ¬(files.length = 1) := by omega
    simp [selectGistFile, hlen, h1, h3]
  · rintro rfl h2 h3
    have h1 : ¬(files.length = 1) := by omega
    simp [selectGistFile, hlen, h1, h3]

/-- Witness for `c3_gist_file_selection` at the spec's three examples:
`{a.txt, b.json}` with no filename selects `b.json`; `{a.json, b.json}` with
no filename is ambiguous; `{a.json}` with filename `missing.json` is not
found. -/
theorem c3_gist_file_selection_witness :
    selectGistFile "g" ["a.txt", "b.json"] none = Except.ok "b.json" ∧
    selectGistFile "g" ["a.json", "b.json"] none =
      Except.error (GistFileError.multipleFiles "g" ["a.json", "b.json"]) ∧
    selectGistFile "g" ["a.json"] (some "missing.json") =
      Except.error (GistFileError.fileNotFound "missing.json" ["a.json"]) := by
  refine ⟨?_, ?_, ?_⟩
  · have h := (c3_gist_file_selection "g" ["a.txt", "b.json"] none (by decide)).2.2.1 rfl
      (by decide) (by decide)
    exact h.trans (congrArg Except.ok (by decide))
  · exact (c3_gist_file_selection "g" ["a.json", "b.json"] none (by decide)).2.2.2 rfl
      (by decide) (by decide)
  · exact ((c3_gist_file_selection "g" ["a.json"] (some "missing.json") (by decide)).1
      "missing.json" rfl).2 (by decide)

/-! ## Split/join lemmas for Gist descriptor parsing -/

theorem splitCharList_ne_nil (sep : Char) (s : List Char) : splitCharList sep s ≠ [] := by
  induction s with
  | nil => simp [splitCharList]
  | cons c rest ih =>
    by_cases h : c = sep
    · simp [splitCharList, h]
    · cases hr : splitCharList sep rest with
      | nil => exact absurd hr ih
      | cons g gs => simp [splitCharList, h, hr]

theorem containsChar_iff_two_le_splitCharList (sep : Char) (s : List Char) :
    containsChar s sep = true ↔ 2 ≤ (splitCharList sep s).length := by
  induction s with
  | nil => simp [containsChar, splitCharList]
  | cons c rest ih =>
    by_cases h : c = sep
    · subst h
      have hpos : 0 < (splitCharList c rest).length :=
        List.length_pos.mpr (splitCharList_ne_nil c rest)
      have hsp : splitCharList c (c :: rest) = [] :: splitCharList c rest := by
        simp [splitCharList]
      rw [hsp]
      simp only [containsChar, if_pos rfl, List.length_cons]
      constructor
      · intro _
        omega
      · intro _
        rfl
    · cases hr : splitCharList sep rest with
      | nil => exact absurd hr (splitCharList_ne_nil sep rest)
      | cons g gs =>
        rw [hr] at ih
        simp only [containsChar, if_neg h, splitCharList, hr]
        simpa using ih

theorem splitCharList_of_not_contains (sep : Char) (s : List Char)
    (h : containsChar s sep = false) : splitCharList sep s = [s] := by
  induction s with
  | nil => simp [splitCharList]
  | cons c rest ih =>
    have hc : ¬(c = sep) := by
      intro hh
      simp [containsChar, hh] at h
    have h2 : containsChar rest sep = false := by
      simpa [containsChar, hc] using h
    simp [splitCharList, hc, ih h2]

theorem splitCharList_append_sep (sep : Char) (x t : List Char)
    (h : containsChar x sep = false) :
    splitCharList sep (x ++ sep :: t) = x :: splitCharList sep t := by
  induction x with
  | nil => simp [splitCharList]
  | cons c x2 ih =>
    have hc : ¬(c = sep) := by
      intro hh
      simp [containsChar, hh] at h
    have h2 : containsChar x2 sep = false := by
      simpa [containsChar, hc] using h
    rw [List.cons_append]
    simp [splitCharList, hc, ih h2]

theorem splitCharList_joinCharList (sep : Char) (parts : List (List Char)) (hne : parts ≠ [])
    (h : ∀ p ∈ parts, containsChar p sep = false) :
    splitCharList sep (joinCharList sep parts) = parts := by
  induction parts with
  | nil => exact absurd rfl hne
  | cons x rest ih =>
    cases rest with
    | nil =>
      show splitCharList sep (joinCharList sep [x]) = [x]
      rw [joinCharList]
      exact splitCharList_of_not_contains sep x (h x (List.mem_cons_self _ _))
    | cons y rest2 =>
      have hstep : joinCharList sep (x :: y :: rest2) =
          x ++ sep :: joinCharList sep (y :: rest2) := rfl
      rw [hstep, splitCharList_append_sep sep x _ (h x (List.mem_cons_self _ _)),
        ih (List.cons_ne_nil y rest2) (fun p hp => h p (List.mem_cons_of_mem _ hp))]

theorem jsSplitChar_joinSlash (segs : List String) (hne : segs ≠ [])
    (h : ∀ p ∈ segs, jsIncludesChar p '/' = false) :
    jsSplitChar (joinSlash segs) '/' = segs := by
  have hc : ∀ p ∈ segs.map String.data, containsChar p '/' = false := by
    intro p hp
    obtain ⟨s, hs, rfl⟩ := List.mem_map.mp hp
    exact h s hs
  have hne2 : segs.map String.data ≠ [] := by
    intro hh
    exact hne (List.map_eq_nil_iff.mp hh)
  show (splitCharList '/' (String.mk (joinCharList '/' (segs.map String.data))).data).map
      String.mk = segs
  rw [show (String.mk (joinCharList '/' (segs.map String.data))).data =
      joinCharList '/' (segs.map String.data) from rfl,
    splitCharList_joinCharList '/' (segs.map String.data) hne2 hc, List.map_map]
  have hid : (String.mk ∘ String.data) = id := funext fun s => rfl
  rw [hid, List.map_id]

theorem jsIncludesChar_of_split (s : String) (sep : Char)
    (h : 2 ≤ (jsSplitChar s sep).length) : jsIncludesChar s sep = true := by
  rw [jsIncludesChar, containsChar_iff_two_le_splitCharList]
  simpa [jsSplitChar] using h

/-! ## Claim C9 -/

/-- Claim C9: for every Gist source string with two or more `/` separators
(`joinSlash (a :: b :: rest)` with `rest` non-empty, each segment
slash-free), descriptor parsing silently keeps the first segment as the Gist
id and the second as the filename, discarding all later segments without
error, both in the resolve path (`downloadFromGist`) and in the publish path
(`gistIdToConfig`). -/
theorem c9_multi_slash_parse (a b : String) (rest : List String) (_hr : rest ≠ [])
    (hnosep : ∀ p ∈ a :: b :: rest, jsIncludesChar p '/' = false) :
    downloadFromGistParse (joinSlash (a :: b :: rest)) = (a, some b) ∧
    gistIdToConfig (joinSlash (a :: b :: rest)) = (a, some b) := by
  have hsplit : jsSplitChar (joinSlash (a :: b :: rest)) '/' = a :: b :: rest :=
    jsSplitChar_joinSlash _ (by simp) hnosep
  have hinc : jsIncludesChar (joinSlash (a :: b :: rest)) '/' = true := by
    apply jsIncludesChar_of_split
    rw [hsplit]
    simp
  constructor
  · simp [downloadFromGistParse, hinc, hsplit]
  · simp [gistIdToConfig, hsplit]

/-- Witness for `c9_multi_slash_parse` at `"id/a/b"`: both parsers yield id
`"id"` and filename `"a"`, discarding `"b"`. -/
theorem c9_multi_slash_parse_witness :
    downloadFromGistParse (joinSlash ["id", "a", "b"]) = ("id", some "a") ∧
    gistIdToConfig (joinSlash ["id", "a", "b"]) = ("id", some "a") ∧
    joinSlash ["id", "a", "b"] = "id/a/b" :=
  ⟨(c9_multi_slash_parse "id" "a" ["b"] (by decide) (by decide)).1,
   (c9_multi_slash_parse "id" "a" ["b"] (by decide) (by decide)).2,
   by decide⟩

end PMcp
